import Mathlib

/-!
# Shallow embedding of `lazy-stream` (`src/lib/stream.ts`)

A `Stream<T>` in the source stores a factory `iteratorFn : () => Iterator<T>`.
For a deterministic, pure source (arrays, integer ranges) one full traversal of
a stream is a fixed finite sequence of values, so a stream handle is modelled by
the `List` of values a fresh cursor yields.  Each combinator below is translated
from the generator body of the corresponding method of `IterableStream` (or of
the stage classes `Filtering`, `Mapping`, `Sorting`): the generator's `while`
loop over `iterator.next()` becomes structural recursion over the list of
upstream values, and any per-traversal mutable bookkeeping of the loop
(`count`, `index`, `reduced`, `old`/`current`, …) becomes an explicit
accumulator argument.

JavaScript `undefined` is modelled by `Option.none` where the code can observe
it (`reduce`'s accumulator test, element values); everywhere else the element
type is an arbitrary `α`.
-/

namespace LazyStream

/-- `fromArray(items)`: the generator yields every item of the backing array in
order, so the traversal trace is the list itself. -/
def fromArray {α : Type*} (items : List α) : List α := items

/-- `empty()` is `fromArray([])`. -/
def emptyS {α : Type*} : List α := ([] : List α)

/-- `concat`: the generator yields every value of the first upstream, then
every value of the second. -/
def concat {α : Type*} (a b : List α) : List α := a ++ b

/-- `append(item)`: the generator yields every upstream value, then `item`. -/
def append {α : Type*} (l : List α) (item : α) : List α := l ++ [item]

/-- `tail()`: the generator advances past the first upstream value (if any) and
then yields everything that remains. -/
def tail {α : Type*} : List α → List α
  | [] => []
  | _ :: rest => rest

/-- Loop body of `take(n)` (stream.ts:318-338).  The loop holds the current
value `v`, then pulls the iterator once more; it yields `v` only when that
lookahead pull is not `done` *and* `count < n`.  `count` increments only on a
yield, and the loop keeps pulling until the upstream is exhausted. -/
def takeGo {α : Type*} (n : Nat) : Nat → List α → List α
  | _, [] => []
  | count, v :: rest =>
    match rest with
    | [] => []
    | _ :: _ =>
      if count < n then v :: takeGo n (count + 1) rest
      else takeGo n count rest

/-- `take(n)`: run `takeGo` with `count = 0`. -/
def take {α : Type*} (n : Nat) (l : List α) : List α := takeGo n 0 l

/-- Loop body of `drop(n)` (stream.ts:384-405): every upstream value is pulled;
it is yielded iff `count >= n`, and `count` increments on every iteration. -/
def dropGo {α : Type*} (n : Nat) : Nat → List α → List α
  | _, [] => []
  | count, v :: rest =>
    if n ≤ count then v :: dropGo n (count + 1) rest
    else dropGo n (count + 1) rest

/-- `drop(n)`: run `dropGo` with `count = 0`. -/
def drop {α : Type*} (n : Nat) (l : List α) : List α := dropGo n 0 l

/-- `takeWhile(predicate)` (stream.ts:340-360): holds the current value `v`,
pulls the lookahead; yields `v` and continues only when the lookahead is not
`done` *and* the predicate holds on `v`; otherwise it breaks. -/
def takeWhile {α : Type*} (p : α → Bool) : List α → List α
  | [] => []
  | v :: rest =>
    match rest with
    | [] => []
    | _ :: _ => if p v then v :: takeWhile p rest else []

/-- `takeUntil(predicate)` (stream.ts:362-382): same loop as `takeWhile` with
the predicate negated. -/
def takeUntil {α : Type*} (p : α → Bool) : List α → List α
  | [] => []
  | v :: rest =>
    match rest with
    | [] => []
    | _ :: _ => if p v then [] else v :: takeUntil p rest

/-- `inits()` loop (stream.ts:247-268): `stream` starts as `empty()`; on each
upstream value the current `stream` is yielded and the value is appended; after
the loop the final `stream` is yielded once more. -/
def initsGo {α : Type*} (s : List α) : List α → List (List α)
  | [] => [s]
  | v :: rest => s :: initsGo (s ++ [v]) rest

/-- `inits()`. -/
def inits {α : Type*} (l : List α) : List (List α) := initsGo [] l

/-- `tails()` loop (stream.ts:270-292): after yielding the whole stream, each
remaining loop iteration (one per upstream value) replaces `stream` by
`stream.tail()` and yields it. -/
def tailsGo {α : Type*} : List α → List α → List (List α)
  | _, [] => []
  | s, _ :: rest => tail s :: tailsGo (tail s) rest

/-- `tails()`. -/
def tails {α : Type*} (l : List α) : List (List α) := l :: tailsGo l l

/-- `head()`: pulls at most one value. -/
def headOp {α : Type*} : List α → Option α
  | [] => none
  | v :: _ => some v

/-- `last()`: `value` starts `undefined` and is overwritten by every pulled
element; the final `value` is returned. -/
def lastOp {α : Type*} : List α → Option α
  | [] => none
  | [v] => some v
  | _ :: v :: rest => lastOp (v :: rest)

/-- Loop body of `reduce` (stream.ts:294-316) over JS values (`none` =
`undefined`).  At each element the code tests `reduced === undefined`: if so
the element *replaces* the accumulator without calling the reducer, otherwise
`reduced = reducerfn(reduced, value, index)`.  `index` increments on every
element. -/
def reduceGo {υ : Type*} (fn : Option υ → Option υ → Nat → Option υ) :
    Option υ → Nat → List (Option υ) → Option υ
  | red, _, [] => red
  | red, idx, v :: rest =>
    match red with
    | none => reduceGo fn v (idx + 1) rest
    | some r => reduceGo fn (fn (some r) v idx) (idx + 1) rest

/-- `reduce(reducerfn, initialValue?)`; an omitted `initialValue` is `none`. -/
def reduce {υ : Type*} (fn : Option υ → Option υ → Nat → Option υ)
    (initial : Option υ) (l : List (Option υ)) : Option υ :=
  reduceGo fn initial 0 l

/-- `Filtering.asIterator` (stream.ts:566-594): `index` starts at 0 and is
incremented for *every* upstream value pulled, whether or not the predicate
accepted it. -/
def filterGo {α : Type*} (p : α → Nat → Bool) : Nat → List α → List α
  | _, [] => []
  | idx, v :: rest =>
    if p v idx then v :: filterGo p (idx + 1) rest
    else filterGo p (idx + 1) rest

/-- `filter(predicate)`. -/
def filter {α : Type*} (p : α → Nat → Bool) (l : List α) : List α :=
  filterGo p 0 l

/-- Traversal of the `Filtering` stage returned by `distinct()`
(stream.ts:466-490), with the current contents of `distinctItems` made
explicit.  Crucially, the source allocates `const distinctItems = new Set()`
in the `distinct` *method*, outside the cursor, so the set's state survives
from one traversal to the next; this function returns both the yielded values
and the set contents after the traversal. -/
def distinctGo {α : Type*} [BEq α] (seen : List α) : List α → List α × List α
  | [] => ([], seen)
  | x :: rest =>
    if seen.contains x then distinctGo seen rest
    else
      let r := distinctGo (x :: seen) rest
      (x :: r.1, r.2)

/-- The array returned by the first `toArray()` on a `distinct()` stream:
the shared seen-set starts empty. -/
def distinctFirst {α : Type*} [BEq α] (l : List α) : List α :=
  (distinctGo [] l).1

/-- The array returned by a second `toArray()` on the *same* `distinct()`
stream handle: the traversal starts with the seen-set left over from the
first traversal. -/
def distinctSecond {α : Type*} [BEq α] (l : List α) : List α :=
  (distinctGo (distinctGo [] l).2 l).1

/-- JS `ToString` of a non-negative integer, as its list of decimal digits
(most significant first); structural fuel makes the definition total and
kernel-computable.  `digGo fuel n` is little-endian. -/
def digGo : Nat → Nat → List Nat
  | 0, _ => []
  | _, 0 => []
  | f + 1, n + 1 => ((n + 1) % 10) :: digGo f ((n + 1) / 10)

/-- Decimal digit string of `n` (JS `ToString(n)` for a whole number);
lexicographic comparison of these lists coincides with JS string comparison of
the decimal strings, since the code units of `'0'..'9'` are ordered. -/
def jsDigits (n : Nat) : List Nat :=
  if n = 0 then [0] else (digGo n n).reverse

/-- The ordering ECMAScript `Array.prototype.sort` uses when no comparator is
supplied (`SortCompare`): compare the `ToString` images of the elements.
`toStr` is the embedding of `ToString` for the element type. -/
def jsCmpLe {α : Type*} (toStr : α → List Nat) (a b : α) : Prop :=
  toStr a ≤ toStr b

instance {α : Type*} (toStr : α → List Nat) : DecidableRel (jsCmpLe toStr) :=
  fun a b => inferInstanceAs (Decidable (toStr a ≤ toStr b))

instance {α : Type*} (toStr : α → List Nat) : IsTotal α (jsCmpLe toStr) :=
  ⟨fun a b => le_total (toStr a) (toStr b)⟩

instance {α : Type*} (toStr : α → List Nat) : IsTrans α (jsCmpLe toStr) :=
  ⟨fun _ _ _ h1 h2 => le_trans h1 h2⟩

/-- `Sorting.toStream()` with `compareFn` undefined (stream.ts:648-664): the
upstream is realized into an array and sorted by `Array.prototype.sort`'s
default string comparison.  ECMAScript requires the sort to be stable, which
insertion sort on the `SortCompare` order models. -/
def sortedDefaultBy {α : Type*} (toStr : α → List Nat) (l : List α) : List α :=
  List.insertionSort (jsCmpLe toStr) l

/-- `sorted()` with no comparator on a stream of non-negative numbers. -/
def sortedDefault (l : List Nat) : List Nat :=
  sortedDefaultBy jsDigits l

/-- The inner-group generator `generateGroup` of `group(equalFn)`
(stream.ts:492-529), run to exhaustion (the consumption discipline the spec
demands).  Arguments mirror the closed-over mutable state: the list is the
suffix of the upstream not yet consumed (its head is the value held in
`next`), then `old` and `current`.  Branch 1 (`current` and `old` both
`undefined`) starts a run; branch 2 compares `equalFn(old, current)` — note
`old` is only ever assigned in branch 1, so the comparison is against the
*first* element of the run; branch 3 resets both to `undefined` and breaks
without consuming.  Returns the values the inner stream yields and the suffix
left for the outer generator.  States with exactly one of `old`/`current`
undefined are unreachable under the discipline (the code would apply `equalFn`
to `undefined`); they are mapped to the break outcome. -/
def groupLoop {α : Type*} (eq : α → α → Bool) :
    List α → Option α → Option α → List α × List α
  | [], _, _ => ([], [])
  | v :: rest, none, none =>
    let r := groupLoop eq rest (some v) rest.head?
    (v :: r.1, r.2)
  | v :: rest, some o, some c =>
    if eq o c then
      let r := groupLoop eq rest (some o) rest.head?
      (c :: r.1, r.2)
    else ([], v :: rest)
  | v :: rest, _, _ => ([], v :: rest)

/-- The outer generator of `group(equalFn)` under the sequential-consumption
discipline: while upstream values remain, emit one inner group (realized by
`groupLoop` from the reset state `old = current = undefined`) and continue on
the suffix it left.  Each emitted group consumes at least one upstream value,
so `l.length` bounds the number of groups; the explicit fuel makes the
recursion structural. -/
def groupFuel {α : Type*} (eq : α → α → Bool) : Nat → List α → List (List α)
  | 0, _ => []
  | _, [] => []
  | f + 1, v :: rest =>
    let r := groupLoop eq (v :: rest) none none
    r.1 :: groupFuel eq f r.2

/-- `group(equalFn)`, every inner stream fully realized in emission order. -/
def group {α : Type*} (eq : α → α → Bool) (l : List α) : List (List α) :=
  groupFuel eq l.length l

/-- Spec-side (`Modelled from the spec`): grouping where each element is
compared with the *first* element of the current run — what the code actually
computes; named definition used to state the corrected claim. -/
def headRunsFuel {α : Type*} (eq : α → α → Bool) : Nat → List α → List (List α)
  | 0, _ => []
  | _, [] => []
  | f + 1, v :: rest =>
    (v :: rest.takeWhile (fun x => eq v x)) ::
      headRunsFuel eq f (rest.dropWhile (fun x => eq v x))

/-- Run-grouping by comparison with the head of the current run. -/
def headRuns {α : Type*} (eq : α → α → Bool) (l : List α) : List (List α) :=
  headRunsFuel eq l.length l

/-- Spec-side (`Modelled from the spec`): one run extends while each element is
equal (per `eq`) to the *immediately preceding* element — the grouping the
claim describes.  `adjGo prev rest` splits off the run continuing `prev`. -/
def adjGo {α : Type*} (eq : α → α → Bool) : α → List α → List α × List α
  | _, [] => ([], [])
  | prev, x :: xs =>
    if eq prev x then
      let r := adjGo eq x xs
      (x :: r.1, r.2)
    else ([], x :: xs)

/-- Maximal runs of adjacent equal elements (spec's wording). -/
def adjRunsFuel {α : Type*} (eq : α → α → Bool) : Nat → List α → List (List α)
  | 0, _ => []
  | _, [] => []
  | f + 1, v :: rest =>
    let r := adjGo eq v rest
    (v :: r.1) :: adjRunsFuel eq f r.2

/-- Maximal runs of adjacent equal elements (spec's wording). -/
def adjRuns {α : Type*} (eq : α → α → Bool) (l : List α) : List (List α) :=
  adjRunsFuel eq l.length l

/-- The cursor of `intRange(start, hasNext, next)` (stream.ts:31-46) as a step
function on the generator's state `x`: if `hasNext x` fails the cursor is
exhausted, otherwise it yields `x` and moves to `next x`. -/
def intRangeStep (hasNextP : Nat → Bool) (next : Nat → Nat) (x : Nat) :
    Option (Nat × Nat) :=
  if hasNextP x then some (x, next x) else none

/-- The cursor of a list-backed stream (`fromArray`). -/
def listStep {α : Type*} : List α → Option (α × List α)
  | [] => none
  | a :: t => some (a, t)

/-- One full `toArray()` traversal of `take(n)` over an arbitrary upstream
cursor `up`, metered by upstream pulls: `fuel` is the number of `next()` calls
on the upstream cursor the traversal may still make, `pending` the most recent
pull result, `count` and `acc` the loop state.  Returns `some array` iff the
generator's loop reaches the exhausted upstream within `fuel` pulls — the loop
has no other exit, whatever `n` is. -/
def takeRunGo {σ α : Type*} (up : σ → Option (α × σ)) (n : Nat) :
    Nat → Option (α × σ) → Nat → List α → Option (List α)
  | _, none, _, acc => some acc.reverse
  | 0, some _, _, _ => none
  | fuel + 1, some (v, s), count, acc =>
    match up s with
    | none => takeRunGo up n fuel none count acc
    | some vs =>
      if count < n then takeRunGo up n fuel (some vs) (count + 1) (v :: acc)
      else takeRunGo up n fuel (some vs) count acc

/-- `take(n).toArray()` over the cursor `up` started at `s0`, allowed at most
`fuel` upstream pulls (the initial `iterator.next()` included). -/
def takeToArray {σ α : Type*} (up : σ → Option (α × σ)) (n : Nat) (s0 : σ)
    (fuel : Nat) : Option (List α) :=
  match fuel with
  | 0 => none
  | f + 1 => takeRunGo up n f (up s0) 0 []

/-- Spec-side (`Modelled from the spec`): the fold `reduce` is claimed to
perform once the accumulator is seeded — left fold of the remaining elements
with a running index. -/
def foldFrom {υ : Type*} (fn : υ → υ → Nat → υ) (acc : υ) (idx : Nat) :
    List υ → υ
  | [] => acc
  | v :: rest => foldFrom fn (fn acc v idx) (idx + 1) rest

/-- A reducer on defined values, lifted to the JS-value domain; on a stream of
defined values with a defined accumulator it is exactly `fn`. -/
def liftFn {υ : Type*} (fn : υ → υ → Nat → υ) :
    Option υ → Option υ → Nat → Option υ :=
  fun p c i =>
    match p, c with
    | some p, some c => some (fn p c i)
    | _, _ => none

/-! ## Theorems -/

/-- Claim C1: the spec asserts that every stream over a deterministic source —
a `distinct()` stream included — yields the same array on a second `toArray()`,
the seen-set being recreated empty inside the cursor on every traversal.  The
code allocates the seen-set once, in the `distinct()` method itself
(stream.ts:467), outside the cursor, so the set persists across traversals of
the same handle: `fromArray([1,2]).distinct()` returns `[1,2]` from the first
`toArray()` and `[]` from the second. -/
theorem C1_distinct_seen_set_persists :
    distinctFirst (fromArray [1, 2]) = [1, 2] ∧
    distinctSecond (fromArray [1, 2]) = [] := by
  constructor <;> decide

/-- Claim C2: the spec asserts `take(n)` yields exactly `min(n, |S|)` elements
and `take(n).concat(drop(n))` reconstructs `S`.  The code (stream.ts:330) only
yields an element after the lookahead pull for its successor reports
`done === false`, so the final upstream element is never yielded:
`fromArray([1]).take(1).toArray()` is `[]`, not `[1]`, and
`take(1).concat(drop(1))` on `[1]` is `[]`, not `[1]`; likewise
`take(3)` on `[1,2,3]` yields only `[1,2]`. -/
theorem C2_take_loses_final_element :
    take 1 (fromArray [1]) = [] ∧
    concat (take 1 (fromArray [1])) (drop 1 (fromArray [1])) = [] ∧
    take 3 (fromArray [1, 2, 3]) = [1, 2] := by
  refine ⟨by decide, by decide, by decide⟩

/-- Claim C4: the spec asserts `takeWhile(p)` yields the whole of `S` when `p`
holds everywhere (and dually for `takeUntil`).  The code (stream.ts:351,373)
yields an element only when the lookahead pull for its successor succeeds, so
the final element of the stream is dropped even though no element triggered
the predicate: `fromArray([5]).takeWhile(_ => true).toArray()` is `[]`, not
`[5]`, and `fromArray([5]).takeUntil(_ => false).toArray()` is `[]`. -/
theorem C4_takeWhile_loses_final_element :
    takeWhile (fun _ => true) (fromArray [(5 : Nat)]) = [] ∧
    takeUntil (fun _ => false) (fromArray [(5 : Nat)]) = [] ∧
    takeWhile (fun x => x < 10) (fromArray [1, 2, 3]) = [1, 2] := by
  refine ⟨by decide, by decide, by decide⟩

/-- Claim C3, counterexample: with no comparator, `Array.prototype.sort`
compares `ToString` images, so a numeric stream is *not* sorted numerically
ascending: `fromArray([10,9]).sorted().toArray()` is `[10,9]` (the string
`"10"` sorts before `"9"`), not `[9,10]`, and `[10,9,2]` sorts to `[10,2,9]`. -/
theorem C3_default_sort_not_numeric :
    sortedDefault (fromArray [10, 9]) = [10, 9] ∧
    sortedDefault (fromArray [10, 9]) ≠ [9, 10] ∧
    sortedDefault (fromArray [10, 9, 2]) = [10, 2, 9] := by
  refine ⟨by decide, by decide, by decide⟩

/-- Claim C6, counterexample: the claim says `group(equalFn)` emits one inner
stream per maximal run of *adjacent* equal elements (equality checked against
the immediately preceding element).  The code (stream.ts:510) never reassigns
`old` inside a run, so it compares each element with the *first* element of the
run: with the non-transitive `equalFn (a, b) => b <= a + 1` on `[1,2,3]`,
adjacent-run grouping gives `[[1,2,3]]` but the code produces `[[1,2],[3]]`. -/
theorem C6_group_compares_run_head :
    group (fun a b => b ≤ a + 1) (fromArray [1, 2, 3]) = [[1, 2], [3]] ∧
    adjRuns (fun a b => b ≤ a + 1) (fromArray [1, 2, 3]) = [[1, 2, 3]] ∧
    group (fun a b => b ≤ a + 1) (fromArray [1, 2, 3]) ≠
      adjRuns (fun a b => b ≤ a + 1) (fromArray [1, 2, 3]) := by
  refine ⟨by decide, by decide, by decide⟩

/-- Claim C10: `reduce` decides between folding and seeding by testing the
accumulator against `undefined` at every element.  Shown observationally, with
the reducer universally quantified wherever the claim says it is not invoked:
an `undefined` stream element leaves the accumulator `undefined`, so the next
element seeds it and no reducer call happens for either; with the reducer
returning `undefined` at index 0 despite a supplied initial value, the next
element re-seeds the accumulator; and with `initial` omitted the first reducer
invocation receives index 1 (indices count from the start of the stream). -/
theorem C10_reduce_undefined_sentinel :
    (∀ fn : Option Nat → Option Nat → Nat → Option Nat,
        reduce fn none [none, some 5] = some 5) ∧
    reduce (fun _ _ i => some i) none [some 5, some 7] = some 1 ∧
    (∀ fn : Option Nat → Option Nat → Nat → Option Nat,
        reduce (fun p c i => if i = 0 then none else fn p c i) (some 10)
          [some 1, some 2] = some 2) :=
  ⟨fun _ => rfl, rfl, fun _ => rfl⟩

theorem reduceGo_liftFn {υ : Type*} (fn : υ → υ → Nat → υ) (t : List υ) :
    ∀ (a : υ) (idx : Nat),
      reduceGo (liftFn fn) (some a) idx (t.map some) =
        some (foldFrom fn a idx t) := by
  induction t with
  | nil => intro a idx; rfl
  | cons v rest ih =>
    intro a idx
    simpa [reduceGo, liftFn, foldFrom] using ih (fn a v idx) (idx + 1)

/-- Claim C5: with `initial` omitted, `reduce` on a non-empty stream of defined
values seeds the accumulator with the first element and left-folds from the
second element onward (the first reducer call receiving index 1); on a
single-element stream it returns that element with the reducer never invoked
(the reducer is universally quantified); on an empty stream it returns the
no-value marker `undefined` instead of throwing; and with an initial value the
empty stream reduces to that initial value. -/
theorem C5_reduce_fold_semantics :
    (∀ (fn : Nat → Nat → Nat → Nat) (a : Nat) (t : List Nat),
        reduce (liftFn fn) none ((a :: t).map some) =
          some (foldFrom fn a 1 t)) ∧
    (∀ (g : Option Nat → Option Nat → Nat → Option Nat) (a : Nat),
        reduce g none [some a] = some a) ∧
    (∀ g : Option Nat → Option Nat → Nat → Option Nat,
        reduce g none ([] : List (Option Nat)) = none) ∧
    (∀ (g : Option Nat → Option Nat → Nat → Option Nat) (i : Nat),
        reduce g (some i) [] = some i) := by
  refine ⟨fun fn a t => ?_, fun g a => rfl, fun g => rfl, fun g i => rfl⟩
  simpa [reduce, reduceGo] using reduceGo_liftFn fn t a 1

theorem filterGo_enumFrom {α : Type*} (p : α → Nat → Bool) (l : List α) :
    ∀ idx, filterGo p idx l =
      ((List.enumFrom idx l).filter (fun iv => p iv.2 iv.1)).map Prod.snd := by
  induction l with
  | nil => intro idx; rfl
  | cons v rest ih =>
    intro idx
    by_cases h : p v idx <;>
      simp [filterGo, List.enumFrom, List.filter, h, ih (idx + 1)]

/-- Claim C8: `filter` passes the predicate each element together with its
0-based position in the *upstream* (every pulled element counts, rejected ones
included), and yields the accepted elements in upstream order: it equals
filtering the enumerated upstream.  The concrete conjunct separates the two
index semantics: with `(_, i) => i === 1` the result is `[20]`, the element at
upstream position 1, which no filtered-result-relative indexing produces. -/
theorem C8_filter_indexes_upstream :
    (∀ (p : Nat → Nat → Bool) (l : List Nat),
        filter p l =
          ((l.enum.filter (fun iv => p iv.2 iv.1)).map Prod.snd)) ∧
    filter (fun _ i => i == 1) (fromArray [10, 20, 30]) = [20] := by
  refine ⟨fun p l => ?_, by decide⟩
  simpa [filter, List.enum] using filterGo_enumFrom p l 0

theorem tail_eq_drop_one {α : Type*} (l : List α) : tail l = l.drop 1 := by
  cases l <;> rfl

theorem initsGo_eq_map_take {α : Type*} (l : List α) : ∀ s : List α,
    initsGo s l = (List.range (l.length + 1)).map (fun k => s ++ l.take k) := by
  induction l with
  | nil => intro s; simp [initsGo]
  | cons v rest ih =>
    intro s
    rw [initsGo, ih (s ++ [v])]
    simp [List.range_succ_eq_map, List.map_map, Function.comp_def]

theorem tailsGo_eq_map_drop {α : Type*} (rem : List α) : ∀ s : List α,
    tailsGo s rem = (List.range rem.length).map (fun k => s.drop (k + 1)) := by
  induction rem with
  | nil => intro s; simp [tailsGo]
  | cons v rest ih =>
    intro s
    rw [tailsGo, ih (tail s), tail_eq_drop_one]
    simp only [List.drop_drop, List.length_cons, List.range_succ_eq_map,
      List.map_cons, List.map_map, Function.comp_def]
    congr 1
    apply List.map_congr_left
    intro k _
    congr 1
    omega

theorem initsGo_ne_nil {α : Type*} (l : List α) (s : List α) :
    initsGo s l ≠ [] := by
  cases l <;> simp [initsGo]

theorem lastOp_initsGo {α : Type*} (l : List α) : ∀ s : List α,
    lastOp (initsGo s l) = some (s ++ l) := by
  induction l with
  | nil => intro s; simp [initsGo, lastOp]
  | cons v rest ih =>
    intro s
    rw [initsGo]
    cases h : initsGo (s ++ [v]) rest with
    | nil => exact absurd h (initsGo_ne_nil rest (s ++ [v]))
    | cons x t =>
      have : lastOp (s :: x :: t) = lastOp (x :: t) := by simp [lastOp]
      rw [this, ← h, ih (s ++ [v])]
      simp

/-- Claim C7: for a stream of `n` elements, `inits()` yields exactly `n + 1`
streams — the prefixes of length `0, 1, …, n` in that order — and `tails()`
yields exactly `n + 1` streams — the suffixes dropping `0, 1, …, n` elements
in that order; consequently `inits().last()`, `tails().head()` and the stream
itself all realize to the same array. -/
theorem C7_inits_tails {α : Type*} (l : List α) :
    inits l = (List.range (l.length + 1)).map (fun k => l.take k) ∧
    tails l = (List.range (l.length + 1)).map (fun k => l.drop k) ∧
    (inits l).length = l.length + 1 ∧
    (tails l).length = l.length + 1 ∧
    lastOp (inits l) = some l ∧
    headOp (tails l) = some l := by
  have hinits : inits l = (List.range (l.length + 1)).map (fun k => l.take k) := by
    simpa using initsGo_eq_map_take l []
  have htails : tails l = (List.range (l.length + 1)).map (fun k => l.drop k) := by
    rw [tails, tailsGo_eq_map_drop l l, List.range_succ_eq_map]
    simp [List.map_map, Function.comp_def]
  refine ⟨hinits, htails, ?_, ?_, ?_, rfl⟩
  · rw [hinits]; simp
  · rw [htails]; simp
  · simpa using lastOp_initsGo l []

theorem groupLoop_some {α : Type*} (eq : α → α → Bool) (rest : List α) :
    ∀ o : α, groupLoop eq rest (some o) rest.head? =
      (rest.takeWhile (fun x => eq o x), rest.dropWhile (fun x => eq o x)) := by
  induction rest with
  | nil => intro o; rfl
  | cons x xs ih =>
    intro o
    show groupLoop eq (x :: xs) (some o) (some x) = _
    cases h : eq o x <;>
      simp [groupLoop, h, List.takeWhile_cons, List.dropWhile_cons, ih o]

theorem groupLoop_start {α : Type*} (eq : α → α → Bool) (v : α)
    (rest : List α) :
    groupLoop eq (v :: rest) none none =
      (v :: rest.takeWhile (fun x => eq v x),
        rest.dropWhile (fun x => eq v x)) := by
  simp [groupLoop, groupLoop_some]

theorem groupFuel_eq_headRunsFuel {α : Type*} (eq : α → α → Bool) :
    ∀ (f : Nat) (l : List α), l.length ≤ f →
      groupFuel eq f l = headRunsFuel eq f l := by
  intro f
  induction f with
  | zero => intro l _; cases l <;> rfl
  | succ f ih =>
    intro l h
    cases l with
    | nil => rfl
    | cons v rest =>
      simp only [groupFuel, headRunsFuel, groupLoop_start]
      refine congrArg _ (ih _ ?_)
      have hsub := (List.dropWhile_sublist (l := rest)
        (fun x => eq v x)).length_le
      simp only [List.length_cons] at h
      omega

theorem group_eq_headRuns_aux {α : Type*} (eq : α → α → Bool) (l : List α) :
    group eq l = headRuns eq l :=
  groupFuel_eq_headRunsFuel eq l.length l le_rfl

theorem adjGo_beq {α : Type*} [BEq α] [LawfulBEq α] (xs : List α) :
    ∀ v : α, adjGo (fun a b => a == b) v xs =
      (xs.takeWhile (fun x => v == x), xs.dropWhile (fun x => v == x)) := by
  induction xs with
  | nil => intro v; rfl
  | cons x xs ih =>
    intro v
    cases h : (v == x) with
    | false => simp [adjGo, h, List.takeWhile_cons, List.dropWhile_cons]
    | true =>
      have hvx : v = x := eq_of_beq h
      subst hvx
      simp [adjGo, h, List.takeWhile_cons, List.dropWhile_cons, ih v]

theorem adjRunsFuel_eq_headRunsFuel {α : Type*} [BEq α] [LawfulBEq α] :
    ∀ (f : Nat) (l : List α),
      adjRunsFuel (fun a b : α => a == b) f l =
        headRunsFuel (fun a b : α => a == b) f l := by
  intro f
  induction f with
  | zero => intro l; cases l <;> rfl
  | succ f ih =>
    intro l
    cases l with
    | nil => rfl
    | cons v rest =>
      simp only [adjRunsFuel, headRunsFuel, adjGo_beq]
      exact congrArg _ (ih _)

/-- Claim C6, amended: under the sequential-consumption discipline,
`group(equalFn)` emits one inner stream per maximal run of elements equal (per
`equalFn`) to the *first element of the current run* — not to the immediately
preceding element.  For the default identity equality the two notions
coincide, so `group()` does emit maximal runs of adjacent equal elements and
the spec's example holds. -/
theorem C6_group_runs_amended {α : Type*} [BEq α] [LawfulBEq α]
    (eq : α → α → Bool) (l l2 : List α) :
    group eq l = headRuns eq l ∧
    group (fun a b : α => a == b) l2 = adjRuns (fun a b : α => a == b) l2 ∧
    group (fun a b : Nat => a == b) (fromArray [1, 2, 2, 3, 3, 3]) =
      [[1], [2, 2], [3, 3, 3]] := by
  refine ⟨group_eq_headRuns_aux eq l, ?_, by decide⟩
  rw [group_eq_headRuns_aux]
  exact (adjRunsFuel_eq_headRunsFuel l2.length l2).symm

theorem C6_group_runs_amended_witness :
    group (fun a b : Nat => b ≤ a + 1) [1, 2, 3] =
      headRuns (fun a b : Nat => b ≤ a + 1) [1, 2, 3] ∧
    group (fun a b : Nat => a == b) [4, 4, 7] =
      adjRuns (fun a b : Nat => a == b) [4, 4, 7] ∧
    group (fun a b : Nat => a == b) (fromArray [1, 2, 2, 3, 3, 3]) =
      [[1], [2, 2], [3, 3, 3]] :=
  C6_group_runs_amended (fun a b : Nat => b ≤ a + 1) [1, 2, 3] [4, 4, 7]

/-- Claim C3, amended: `sorted()` with no comparator returns a stream of the
same elements (a permutation of the realized array) arranged in ascending
order of their `ToString` images — the ECMAScript default — which for numeric
streams is *not* numeric order in general; the sort is stable: a pair of
elements in key order in the realized array stays in that relative order
(ties included). -/
theorem C3_default_sort_amended (l : List Nat) (p q : Nat × Nat)
    (lp : List (Nat × Nat)) :
    ((sortedDefault l).Perm l ∧
      List.Sorted (jsCmpLe jsDigits) (sortedDefault l)) ∧
    (jsCmpLe (fun x => jsDigits x.1) p q → [p, q].Sublist lp →
      [p, q].Sublist (sortedDefaultBy (fun x => jsDigits x.1) lp)) := by
  unfold sortedDefault sortedDefaultBy
  exact ⟨⟨List.perm_insertionSort _ l, List.sorted_insertionSort _ l⟩,
    fun h hs => List.pair_sublist_insertionSort h hs⟩

theorem C3_default_sort_amended_witness :
    ((sortedDefault [10, 9]).Perm [10, 9] ∧
      List.Sorted (jsCmpLe jsDigits) (sortedDefault [10, 9])) ∧
    [((1 : Nat), (7 : Nat)), (1, 8)].Sublist
      (sortedDefaultBy (fun x => jsDigits x.1) [(1, 7), (1, 8)]) :=
  ⟨(C3_default_sort_amended [10, 9] (1, 7) (1, 8) [(1, 7), (1, 8)]).1,
    (C3_default_sort_amended [10, 9] (1, 7) (1, 8) [(1, 7), (1, 8)]).2
      (by decide) ((List.Sublist.refl _))⟩

theorem takeRunGo_infinite (next : Nat → Nat) (n : Nat) :
    ∀ (fuel v s count : Nat) (acc : List Nat),
      takeRunGo (intRangeStep (fun _ => true) next) n fuel
        (some (v, s)) count acc = none := by
  intro fuel
  induction fuel with
  | zero => intro v s count acc; rfl
  | succ f ih =>
    intro v s count acc
    show takeRunGo _ n (f + 1) (some (v, s)) count acc = none
    rw [takeRunGo]
    have hup : intRangeStep (fun _ => true) next s = some (s, next s) := rfl
    rw [hup]
    by_cases h : count < n <;> simp [h, ih]

theorem takeRunGo_list_complete {α : Type*} (n : Nat) (rest : List α) :
    ∀ (v : α) (count : Nat) (acc : List α),
      takeRunGo listStep n (rest.length + 1) (some (v, rest)) count acc =
        some (acc.reverse ++ takeGo n count (v :: rest)) := by
  induction rest with
  | nil =>
    intro v count acc
    show takeRunGo listStep n 1 (some (v, [])) count acc = _
    rw [takeRunGo]
    show takeRunGo listStep n 0 none count acc = _
    simp [takeRunGo, takeGo]
  | cons w ws ih =>
    intro v count acc
    show takeRunGo listStep n (ws.length + 1 + 1) (some (v, w :: ws)) count acc = _
    rw [takeRunGo]
    show (if count < n then
        takeRunGo listStep n (ws.length + 1) (some (w, ws)) (count + 1) (v :: acc)
      else takeRunGo listStep n (ws.length + 1) (some (w, ws)) count acc) = _
    by_cases h : count < n
    · rw [if_pos h, ih w (count + 1) (v :: acc)]
      simp [takeGo, h, List.append_assoc]
    · rw [if_neg h, ih w count acc]
      simp [takeGo, h]

theorem takeRunGo_list_short {α : Type*} (n : Nat) (rest : List α) :
    ∀ (f : Nat) (v : α) (count : Nat) (acc : List α), f ≤ rest.length →
      takeRunGo listStep n f (some (v, rest)) count acc = none := by
  induction rest with
  | nil =>
    intro f v count acc hf
    have hf0 : f = 0 := Nat.le_zero.mp hf
    subst hf0
    rfl
  | cons w ws ih =>
    intro f v count acc hf
    match f with
    | 0 => rfl
    | g + 1 =>
      show takeRunGo listStep n (g + 1) (some (v, w :: ws)) count acc = none
      rw [takeRunGo]
      have hup : listStep (w :: ws) = some (w, ws) := rfl
      rw [hup]
      have hg : g ≤ ws.length := by
        simp only [List.length_cons] at hf; omega
      by_cases h : count < n <;> simp [h, ih _ _ _ _ hg]

/-- Claim C9: the `take(n)` generator's loop runs its upstream cursor to
exhaustion regardless of `n`.  Over the unbounded cursor of `intRange` with an
always-true continuation predicate, `take(n).toArray()` never completes within
any finite number of upstream pulls (for every fuel the traversal is still
running); over a finite list-backed upstream the traversal completes only
after exactly `length + 1` upstream pulls — independent of `n` — yielding the
`take n` trace. -/
theorem C9_take_pulls_to_exhaustion :
    (∀ (next : Nat → Nat) (start n fuel : Nat),
        takeToArray (intRangeStep (fun _ => true) next) n start fuel = none) ∧
    (∀ (l : List Nat) (n : Nat),
        takeToArray listStep n l (l.length + 1) = some (take n l) ∧
        takeToArray listStep n l l.length = none) := by
  constructor
  · intro next start n fuel
    match fuel with
    | 0 => rfl
    | f + 1 =>
      show takeRunGo _ n f (intRangeStep (fun _ => true) next start) 0 [] = none
      have hup : intRangeStep (fun _ => true) next start =
        some (start, next start) := rfl
      rw [hup]
      exact takeRunGo_infinite next n f start (next start) 0 []
  · intro l n
    cases l with
    | nil => exact ⟨rfl, rfl⟩
    | cons v rest =>
      constructor
      · show takeRunGo listStep n ((v :: rest).length) (listStep (v :: rest)) 0 []
            = some (take n (v :: rest))
        have hup : listStep (v :: rest) = some (v, rest) := rfl
        rw [hup]
        simpa [take] using takeRunGo_list_complete n rest v 0 []
      · show takeRunGo listStep n rest.length (listStep (v :: rest)) 0 [] = none
        have hup : listStep (v :: rest) = some (v, rest) := rfl
        rw [hup]
        exact takeRunGo_list_short n rest rest.length v 0 [] le_rfl

end LazyStream
